import Mathlib

/-!
Verification of the partitioning logic of `Interface.py`: value-range and
round-robin partitioning of a movie-ratings table, with incremental inserts.

The database state visible to the partitioning code is modelled by `DB`:
the base ratings table (a list of rows in insertion order), the family of
range partition tables `range_part0 .. range_part(R-1)`, the family of
round-robin partition tables `rrobin_part0 .. rrobin_part(RR-1)`, and the
single-row table `roundrobin_metadata` holding `next_use_partition`
(`none` when that table does not exist).

SQL `FLOAT` arithmetic on ratings is modelled by exact rational
arithmetic.  Python's `int(...)` truncation and binary `%` on a positive
divisor are modelled by `pyTrunc` and `pyMod`.

Transactions: all cursors of a psycopg2 connection share one
transaction, and `count_partitions` ends with `con.commit()` (line 310).
Both incremental inserts call `count_partitions` right after their base
`INSERT`, so that base row is durably committed mid-operation, before the
partition routing even starts.  A raise after that point (the only one in
the model: `SELECT ... FROM roundrobin_metadata` when that table does not
exist) therefore leaves the base row committed while every later write is
rolled back.  `roundrobininsert` returns `Except DB DB`: `.ok db2` is a
normal return with final committed state `db2`, and `.error db2` is a
raising run whose durably committed state at the time of the raise is
`db2`.
-/

/-- One row of the ratings table and of every partition table:
`(userid INTEGER, movieid INTEGER, rating FLOAT)`. -/
structure Row where
  userid : ℤ
  movieid : ℤ
  rating : ℚ
deriving DecidableEq

/-- The storage state the partitioning code reads and writes.
`rangeParts` is the list of `range_part{i}` tables in index order,
`rrobinParts` the list of `rrobin_part{i}` tables, and `rrobinCursor` the
content of `roundrobin_metadata.next_use_partition` (`none` when the
metadata table has not been created). -/
structure DB where
  ratings : List Row
  rangeParts : List (List Row)
  rrobinParts : List (List Row)
  rrobinCursor : Option ℤ
deriving DecidableEq

/-- Python `int(q)`: truncation toward zero. -/
def pyTrunc (q : ℚ) : ℤ := if q < 0 then ⌈q⌉ else ⌊q⌋

/-- Python `a % b` on numbers (result has the sign of `b`; here only used
with `b > 0`): `a - b * floor (a / b)`. -/
def pyMod (a b : ℚ) : ℚ := a - b * ⌊a / b⌋

/-- The `WHERE` predicate `rangepartition` uses to fill `range_part{i}`
out of `n` partitions (lines 96-109 of `Interface.py`): with
`delta = 5.0 / n`, `minRange = i * delta`, `maxRange = minRange + delta`,
partition 0 takes `minRange <= rating AND rating <= maxRange` and
partition `i > 0` takes `minRange < rating AND rating <= maxRange`. -/
def rangeBulkPred (n i : ℕ) (r : ℚ) : Bool :=
  let delta : ℚ := 5 / n
  let minRange : ℚ := i * delta
  let maxRange : ℚ := minRange + delta
  if i = 0 then decide (minRange ≤ r) && decide (r ≤ maxRange)
  else decide (minRange < r) && decide (r ≤ maxRange)

/-- The partition index `rangeinsert` computes for a rating (lines
214-218 of `Interface.py`): `delta = 5.0 / n`,
`index = int(rating / delta)`, then `index -= 1` when
`rating % delta == 0 and index != 0`. -/
def rangeRouteIndex (n : ℕ) (r : ℚ) : ℤ :=
  let delta : ℚ := 5 / n
  let index : ℤ := pyTrunc (r / delta)
  if pyMod r delta = 0 ∧ index ≠ 0 then index - 1 else index

/-- Append a row to the partition table at position `idx` of a partition
family, leaving the other tables unchanged (the effect of
`INSERT INTO {TABLE_PREFIX}{idx} ... VALUES ...`). -/
def appendAt (parts : List (List Row)) (idx : ℕ) (row : Row) : List (List Row) :=
  parts.set idx (parts.getD idx [] ++ [row])

/-- Model of `count_partitions(prefix, openconnection)` (lines 283-312):
counts the user tables whose name starts with the given string, and then
calls `con.commit()` (line 310), durably committing every write pending
on the shared connection — including the caller's base-row `INSERT`.  In
the modelled state the tables matching `range_part%` are exactly the
`rangeParts` family and the tables matching `rrobin_part%` are exactly
the `rrobinParts` family.  The first component is the count; the second
is the state as durably committed by that `con.commit()` (content-wise
the input state: the commit changes durability, not content). -/
def count_partitions (pfx : String) (db : DB) : ℕ × DB :=
  ((if pfx = "range_part" then db.rangeParts.length
    else if pfx = "rrobin_part" then db.rrobinParts.length
    else 0), db)

/-- Model of `loadratings(ratingstablename, ratingsfilepath,
openconnection)` (lines 5-50).  `fileExists` is the result of
`os.path.exists(ratingsfilepath)`; when false the function returns before
touching storage.  Otherwise the ratings table is dropped, recreated and
filled with the file's parsed rows `(userid, movieid, rating, timestamp)`,
the timestamp column being dropped at the end. -/
def loadratings (fileExists : Bool) (fileLines : List (ℤ × ℤ × ℚ × ℤ)) (db : DB) : DB :=
  if !fileExists then db
  else { db with ratings := fileLines.map (fun l => ⟨l.1, l.2.1, l.2.2.1⟩) }

/-- Model of `rangepartition(ratingstablename, numberofpartitions,
openconnection)` (lines 53-112): if `numberofpartitions <= 0` return
without writing; otherwise create `range_part0 .. range_part(n-1)` and
fill `range_part{i}` with the rows of the ratings table satisfying
`rangeBulkPred n i`. -/
def rangepartition (numberofpartitions : ℤ) (db : DB) : DB :=
  if numberofpartitions ≤ 0 then db
  else
    let n := numberofpartitions.toNat
    { db with
      rangeParts :=
        (List.range n).map (fun i => db.ratings.filter (fun row => rangeBulkPred n i row.rating)) }

/-- Model of `roundrobinpartition(ratingstablename, numberofpartitions,
openconnection)` (lines 115-169): if `numberofpartitions <= 0` return
without writing; otherwise create `rrobin_part0 .. rrobin_part(n-1)`,
fill `rrobin_part{i}` with the rows whose `ROW_NUMBER() OVER()` value
`rnum` satisfies `(rnum - 1) % n = i` (`List.enum` assigns the 0-based
value `rnum - 1`), then create `roundrobin_metadata` and store
`total_rows % numberofpartitions` in `next_use_partition`. -/
def roundrobinpartition (numberofpartitions : ℤ) (db : DB) : DB :=
  if numberofpartitions ≤ 0 then db
  else
    let n := numberofpartitions.toNat
    let total_rows := db.ratings.length
    { db with
      rrobinParts :=
        (List.range n).map
          (fun i => (db.ratings.enum.filter (fun p => p.1 % n = i)).map Prod.snd),
      rrobinCursor := some ((total_rows : ℤ) % numberofpartitions) }

/-- Model of `rangeinsert(ratingstablename, userid, itemid, rating,
openconnection)` (lines 171-225): return without writing when the rating
is outside `[0, 5]`; otherwise insert the row into the ratings table,
count the `range_part%` tables — whose trailing `con.commit()` durably
commits that base insert — return (with only the base insert committed)
when that count is `<= 0`, and otherwise also insert the row into
`range_part{rangeRouteIndex}`. -/
def rangeinsert (userid itemid : ℤ) (rating : ℚ) (db : DB) : DB :=
  if rating < 0 ∨ rating > 5 then db
  else
    let row : Row := ⟨userid, itemid, rating⟩
    let db1 : DB := { db with ratings := db.ratings ++ [row] }
    let counted := count_partitions "range_part" db1
    let numberofpartitions := counted.1
    let db2 : DB := counted.2
    if numberofpartitions ≤ 0 then db2
    else
      let index := rangeRouteIndex numberofpartitions rating
      { db2 with rangeParts := appendAt db2.rangeParts index.toNat row }

/-- Model of `roundrobininsert(ratingstablename, userid, itemid, rating,
openconnection)` (lines 227-281): return without writing when the rating
is outside `[0, 5]`; otherwise insert the row into the ratings table,
count the `rrobin_part%` tables — whose trailing `con.commit()` durably
commits that base insert — return (with only the base insert committed)
when that count is `<= 0`; otherwise read `next_use_partition`.  If
`roundrobin_metadata` does not exist that `SELECT` raises: the base row
is already committed and every later write of this run is rolled back,
modelled as `.error` carrying the committed state.  Otherwise increment
the cursor and insert the row into `rrobin_part{next_use % count}`. -/
def roundrobininsert (userid itemid : ℤ) (rating : ℚ) (db : DB) : Except DB DB :=
  if rating < 0 ∨ rating > 5 then .ok db
  else
    let row : Row := ⟨userid, itemid, rating⟩
    let db1 : DB := { db with ratings := db.ratings ++ [row] }
    let counted := count_partitions "rrobin_part" db1
    let numberofpartitions := counted.1
    let db2 : DB := counted.2
    if numberofpartitions ≤ 0 then .ok db2
    else
      match db2.rrobinCursor with
      | none => .error db2
      | some next_use =>
        let db3 : DB := { db2 with rrobinCursor := some (next_use + 1) }
        let index : ℤ := next_use % (numberofpartitions : ℤ)
        .ok { db3 with rrobinParts := appendAt db3.rrobinParts index.toNat row }

/-- The multiset of all rows stored across a partition family (the union
of the family's tables, ignoring order). -/
def partsUnion (parts : List (List Row)) : Multiset Row :=
  (parts.map (fun l => Multiset.ofList l)).sum

/-- A sequence of `rangeinsert` calls, applied in order. -/
def rangeInsertFold (ops : List (ℤ × ℤ × ℚ)) (db : DB) : DB :=
  ops.foldl (fun s op => rangeinsert op.1 op.2.1 op.2.2 s) db

/-- A sequence of `roundrobininsert` calls, applied in order, stopping
at (and propagating) the first raising run. -/
def rrobinInsertFold (ops : List (ℤ × ℤ × ℚ)) (db : DB) : Except DB DB :=
  ops.foldlM (fun s op => roundrobininsert op.1 op.2.1 op.2.2 s) db

/-- Invariant tying the range partition family to the base table: every
stored row sits in the partition its rating routes to, and the family
holds exactly the base rows. -/
def RangeConsistent (db : DB) : Prop :=
  (∀ i, ∀ hi : i < db.rangeParts.length, ∀ row ∈ db.rangeParts[i],
      (0 ≤ row.rating ∧ row.rating ≤ 5) ∧
      rangeRouteIndex db.rangeParts.length row.rating = (i : ℤ)) ∧
  partsUnion db.rangeParts = Multiset.ofList db.ratings

example : rangeRouteIndex 5 (5/2) = 2 := by norm_num [rangeRouteIndex, pyTrunc, pyMod]
example : rangeRouteIndex 5 5 = 4 := by norm_num [rangeRouteIndex, pyTrunc, pyMod]
example : rangeRouteIndex 5 0 = 0 := by norm_num [rangeRouteIndex, pyTrunc, pyMod]
example : rangeRouteIndex 5 1 = 0 := by norm_num [rangeRouteIndex, pyTrunc, pyMod]
example : rangeRouteIndex 3 5 = 2 := by norm_num [rangeRouteIndex, pyTrunc, pyMod]
example : rangeBulkPred 5 0 1 = true := by norm_num [rangeBulkPred]
example : rangeBulkPred 5 1 1 = false := by norm_num [rangeBulkPred]
example : rangeBulkPred 5 2 (5/2) = true := by norm_num [rangeBulkPred]
example : rangeBulkPred 5 4 5 = true := by norm_num [rangeBulkPred]

section RangeRouting

/-- Positivity of the bucket width `delta = 5.0 / n`. -/
lemma delta_pos {n : ℕ} (hn : 0 < n) : (0:ℚ) < 5 / n := by positivity

/-- Core bucket arithmetic, stated over the scaled value `q = r / delta`:
the interval conventions of the bulk build pick bucket `i` exactly when
`i` equals the floor-with-boundary-decrement index of the insert path. -/
lemma bucket_core (i : ℕ) (q : ℚ) (hq0 : 0 ≤ q) :
    (if i = 0 then 0 ≤ q ∧ q ≤ 1 else (i:ℚ) < q ∧ q ≤ (i:ℚ)+1) ↔
    (i : ℤ) = (if (⌊q⌋:ℚ) = q ∧ ⌊q⌋ ≠ 0 then ⌊q⌋ - 1 else ⌊q⌋) := by
  have hfl : (0:ℤ) ≤ ⌊q⌋ := Int.floor_nonneg.2 hq0
  by_cases hint : (⌊q⌋:ℚ) = q
  · by_cases hk : ⌊q⌋ = 0
    · have hq : q = 0 := by rw [← hint, hk]; norm_num
      subst hq
      simp only [hint, hk, ne_eq, not_true_eq_false, and_false, if_false]
      by_cases hi : i = 0
      · subst hi; simp
      · simp only [hi, if_false]
        constructor
        · rintro ⟨h1, -⟩
          exact absurd h1 (not_lt.2 (Nat.cast_nonneg i))
        · intro h
          exact absurd h (by exact_mod_cast hi)
    · simp only [hint, hk, ne_eq, not_false_eq_true, and_true, if_true, true_and]
      by_cases hi : i = 0
      · subst hi
        simp only [if_true, hq0, true_and, Nat.cast_zero]
        constructor
        · intro h1
          have : ⌊q⌋ ≤ 1 := by
            rw [← Int.floor_one (α := ℚ)]
            exact Int.floor_le_floor h1
          omega
        · intro h
          have : ⌊q⌋ = 1 := by omega
          rw [← hint, this]; norm_num
      · simp only [hi, if_false]
        constructor
        · rintro ⟨h1, h2⟩
          have hl : (i:ℤ) < ⌊q⌋ := by
            have : ((i:ℤ):ℚ) < (⌊q⌋:ℚ) := by rw [hint]; push_cast; exact_mod_cast h1
            exact_mod_cast this
          have hr : ⌊q⌋ ≤ (i:ℤ) + 1 := by
            have : (⌊q⌋:ℚ) ≤ ((i:ℤ):ℚ) + 1 := by rw [hint]; push_cast; exact_mod_cast h2
            exact_mod_cast this
          omega
        · intro h
          have h1 : (i:ℤ) + 1 = ⌊q⌋ := by omega
          constructor
          · have : ((i:ℤ):ℚ) < ⌊q⌋ := by exact_mod_cast (by omega : (i:ℤ) < ⌊q⌋)
            rw [hint] at this; exact_mod_cast this
          · have : (⌊q⌋:ℚ) ≤ ((i:ℤ):ℚ) + 1 := by exact_mod_cast (by omega : ⌊q⌋ ≤ (i:ℤ) + 1)
            rw [hint] at this
            push_cast at this ⊢
            linarith
  · simp only [hint, false_and, if_false]
    have hlow : (⌊q⌋:ℚ) < q := lt_of_le_of_ne (Int.floor_le q) hint
    have hhigh : q < (⌊q⌋:ℚ) + 1 := Int.lt_floor_add_one q
    by_cases hi : i = 0
    · subst hi
      simp only [if_true, hq0, true_and, Nat.cast_zero]
      constructor
      · intro h1
        have h2 : ⌊q⌋ ≤ 1 := by
          rw [← Int.floor_one (α := ℚ)]
          exact Int.floor_le_floor h1
        have h3 : ⌊q⌋ ≠ 1 := by
          intro hq1
          rw [hq1] at hhigh hlow
          push_cast at hhigh hlow
          have : q = 1 := le_antisymm h1 (by linarith)
          exact hint (by rw [hq1, this]; norm_num)
        omega
      · intro h
        have : (⌊q⌋:ℚ) + 1 = 1 := by rw [← h]; norm_num
        linarith
    · simp only [hi, if_false]
      constructor
      · rintro ⟨h1, h2⟩
        have hl : (i:ℤ) ≤ ⌊q⌋ := Int.le_floor.2 (by exact_mod_cast h1.le)
        have hne : q ≠ (i:ℚ) + 1 := by
          intro he
          apply hint
          have hcast : ((i:ℚ) + 1) = (((i:ℤ) + 1 : ℤ):ℚ) := by push_cast; ring
          rw [he, hcast, Int.floor_intCast]
        have hr : ⌊q⌋ < (i:ℤ) + 1 := by
          rw [Int.floor_lt]
          push_cast
          exact lt_of_le_of_ne h2 hne
        omega
      · intro h
        constructor
        · calc (i:ℚ) = ((i:ℤ):ℚ) := by push_cast; ring
          _ = (⌊q⌋:ℚ) := by exact_mod_cast h
          _ < q := hlow
        · have : q < ((i:ℤ):ℚ) + 1 := by rw [h]; exact hhigh
          push_cast at this
          linarith

/-- On nonnegative ratings `rangeRouteIndex` is the floor of `r / delta`,
decremented on exact multiples away from zero. -/
lemma rangeRouteIndex_eq (n : ℕ) (hn : 0 < n) (r : ℚ) (h0 : 0 ≤ r) :
    rangeRouteIndex n r =
      (if (⌊r/(5/(n:ℚ))⌋:ℚ) = r/(5/(n:ℚ)) ∧ ⌊r/(5/(n:ℚ))⌋ ≠ 0 then ⌊r/(5/(n:ℚ))⌋ - 1
       else ⌊r/(5/(n:ℚ))⌋) := by
  have hδ : (0:ℚ) < 5 / n := delta_pos hn
  have hq0 : 0 ≤ r / (5/(n:ℚ)) := div_nonneg h0 hδ.le
  have htr : pyTrunc (r / (5/(n:ℚ))) = ⌊r/(5/(n:ℚ))⌋ := by
    rw [pyTrunc, if_neg (not_lt.2 hq0)]
  have hmul : (5/(n:ℚ)) * (r / (5/(n:ℚ))) = r := mul_div_cancel₀ r hδ.ne'
  have hmod : pyMod r (5/(n:ℚ)) = 0 ↔ (⌊r/(5/(n:ℚ))⌋:ℚ) = r/(5/(n:ℚ)) := by
    rw [pyMod]
    constructor
    · intro h
      have h' : r = (5/(n:ℚ)) * ⌊r/(5/(n:ℚ))⌋ := by linarith [h]
      have : (5/(n:ℚ)) * (r / (5/(n:ℚ))) = (5/(n:ℚ)) * (⌊r/(5/(n:ℚ))⌋:ℚ) := by
        rw [hmul]; exact h'
      exact (mul_left_cancel₀ hδ.ne' this).symm
    · intro h
      have : (5/(n:ℚ)) * (⌊r/(5/(n:ℚ))⌋:ℚ) = r := by rw [h]; exact hmul
      linarith [this]
  rw [rangeRouteIndex]
  simp only [htr]
  by_cases hc : pyMod r (5/(n:ℚ)) = 0 ∧ ⌊r/(5/(n:ℚ))⌋ ≠ 0
  · rw [if_pos hc, if_pos ⟨hmod.1 hc.1, hc.2⟩]
  · rw [if_neg hc, if_neg (fun h => hc ⟨hmod.2 h.1, h.2⟩)]

/-- The bulk-build `WHERE` clause for bucket `i`, rephrased over the
scaled value `r / delta`. -/
lemma rangeBulkPred_iff (n : ℕ) (hn : 0 < n) (i : ℕ) (r : ℚ) :
    rangeBulkPred n i r = true ↔
      (if i = 0 then 0 ≤ r/(5/(n:ℚ)) ∧ r/(5/(n:ℚ)) ≤ 1
       else (i:ℚ) < r/(5/(n:ℚ)) ∧ r/(5/(n:ℚ)) ≤ (i:ℚ)+1) := by
  have hδ : (0:ℚ) < 5 / n := delta_pos hn
  rw [rangeBulkPred]
  split_ifs with hi
  · subst hi
    simp only [Bool.and_eq_true, decide_eq_true_eq, Nat.cast_zero, zero_mul, zero_add]
    constructor
    · rintro ⟨ha, hb⟩
      exact ⟨div_nonneg ha hδ.le, by rw [div_le_one hδ]; linarith⟩
    · rintro ⟨ha, hb⟩
      rw [div_le_one hδ] at hb
      constructor
      · by_contra hr
        push_neg at hr
        have : r / (5/(n:ℚ)) < 0 := div_neg_of_neg_of_pos hr hδ
        linarith
      · linarith
  · simp only [Bool.and_eq_true, decide_eq_true_eq]
    constructor
    · rintro ⟨ha, hb⟩
      refine ⟨(lt_div_iff₀ hδ).2 ha, (div_le_iff₀ hδ).2 ?_⟩
      rw [add_mul, one_mul]
      linarith
    · rintro ⟨ha, hb⟩
      refine ⟨(lt_div_iff₀ hδ).1 ha, ?_⟩
      have := (div_le_iff₀ hδ).1 hb
      rw [add_mul, one_mul] at this
      linarith

/-- Bucket `i` of the bulk build accepts a nonnegative rating exactly
when `i` is the index the incremental insert computes for it. -/
lemma rangeBulkPred_iff_route (n : ℕ) (hn : 0 < n) (r : ℚ) (h0 : 0 ≤ r) (i : ℕ) :
    rangeBulkPred n i r = true ↔ (i:ℤ) = rangeRouteIndex n r := by
  rw [rangeBulkPred_iff n hn i r, rangeRouteIndex_eq n hn r h0]
  exact bucket_core i (r/(5/(n:ℚ))) (div_nonneg h0 (delta_pos hn).le)

/-- The insert path's partition index is always in `[0, n)` for a valid
rating. -/
lemma rangeRouteIndex_bounds (n : ℕ) (hn : 0 < n) (r : ℚ) (h0 : 0 ≤ r) (h5 : r ≤ 5) :
    0 ≤ rangeRouteIndex n r ∧ rangeRouteIndex n r < n := by
  have hδ : (0:ℚ) < 5 / n := delta_pos hn
  have hq0 : 0 ≤ r / (5/(n:ℚ)) := div_nonneg h0 hδ.le
  have hqn : r / (5/(n:ℚ)) ≤ (n:ℚ) := by
    rw [div_le_iff₀ hδ]
    have hmm : (n:ℚ) * (5/n) = 5 := by
      field_simp
    rw [hmm]; exact h5
  have hfl0 : 0 ≤ ⌊r/(5/(n:ℚ))⌋ := Int.floor_nonneg.2 hq0
  have hfln : ⌊r/(5/(n:ℚ))⌋ ≤ (n:ℤ) := by
    have h' := Int.floor_le_floor hqn
    rwa [Int.floor_natCast] at h'
  rw [rangeRouteIndex_eq n hn r h0]
  split_ifs with hc
  · omega
  · push_neg at hc
    constructor
    · omega
    · by_contra hge
      push_neg at hge
      have heq : ⌊r/(5/(n:ℚ))⌋ = (n:ℤ) := le_antisymm hfln hge
      have hqeq : r/(5/(n:ℚ)) = (n:ℚ) := by
        have h1 : ((n:ℤ):ℚ) ≤ r/(5/(n:ℚ)) := by rw [← heq]; exact Int.floor_le _
        push_cast at h1
        linarith
      have hfq : (⌊r/(5/(n:ℚ))⌋:ℚ) = r/(5/(n:ℚ)) := by
        rw [hqeq, Int.floor_natCast]
        norm_cast
      have := hc hfq
      omega

end RangeRouting

/-- C1: for every partition count `n > 0` and every rating `r` in
`[0, 5]`, the partition index computed by the range incremental insert
(`rangeRouteIndex`: floor of `r / delta` with `delta = 5.0/n`,
decremented by one on an exact multiple with nonzero index) is in
`[0, n)` and equals the index of the unique bucket whose bulk-build
`WHERE` clause (`rangeBulkPred`) accepts `r`. -/
theorem rangeinsert_agrees_with_rangepartition (n : ℕ) (hn : 0 < n) (r : ℚ)
    (h0 : 0 ≤ r) (h5 : r ≤ 5) :
    (0 ≤ rangeRouteIndex n r ∧ rangeRouteIndex n r < n) ∧
    ∀ i < n, (rangeBulkPred n i r = true ↔ (i:ℤ) = rangeRouteIndex n r) :=
  ⟨rangeRouteIndex_bounds n hn r h0 h5, fun i _ => rangeBulkPred_iff_route n hn r h0 i⟩

/-- Witness for C1 at `n = 4`, `r = 3`. -/
theorem rangeinsert_agrees_with_rangepartition_witness :
    (0 ≤ rangeRouteIndex 4 3 ∧ rangeRouteIndex 4 3 < 4) ∧
    ∀ i < 4, (rangeBulkPred 4 i 3 = true ↔ (i:ℤ) = rangeRouteIndex 4 3) :=
  rangeinsert_agrees_with_rangepartition 4 (by norm_num) 3 (by norm_num) (by norm_num)

lemma count_partitions_range (db : DB) :
    (count_partitions "range_part" db).1 = db.rangeParts.length := rfl

lemma count_partitions_rrobin (db : DB) :
    (count_partitions "rrobin_part" db).1 = db.rrobinParts.length := rfl

lemma count_partitions_state (pfx : String) (db : DB) :
    (count_partitions pfx db).2 = db := rfl

lemma rangeinsert_invalid_eq (db : DB) (u m : ℤ) (r : ℚ) (hr : r < 0 ∨ r > 5) :
    rangeinsert u m r db = db := by
  rw [rangeinsert, if_pos hr]

lemma roundrobininsert_invalid_eq (db : DB) (u m : ℤ) (r : ℚ) (hr : r < 0 ∨ r > 5) :
    roundrobininsert u m r db = .ok db := by
  rw [roundrobininsert, if_pos hr]

lemma rangeinsert_valid_eq (db : DB) (u m : ℤ) (r : ℚ) (h0 : 0 ≤ r) (h5 : r ≤ 5)
    (hn : db.rangeParts.length ≠ 0) :
    rangeinsert u m r db =
      { db with ratings := db.ratings ++ [⟨u, m, r⟩],
                rangeParts :=
                  appendAt db.rangeParts (rangeRouteIndex db.rangeParts.length r).toNat
                    ⟨u, m, r⟩ } := by
  rw [rangeinsert]
  rw [if_neg (by push_neg; exact ⟨h0, h5⟩)]
  simp only [count_partitions_range, count_partitions_state]
  rw [if_neg (by simpa using hn)]

lemma rangeinsert_nopart_eq (db : DB) (u m : ℤ) (r : ℚ) (h0 : 0 ≤ r) (h5 : r ≤ 5)
    (hn : db.rangeParts.length = 0) :
    rangeinsert u m r db = { db with ratings := db.ratings ++ [⟨u, m, r⟩] } := by
  rw [rangeinsert]
  rw [if_neg (by push_neg; exact ⟨h0, h5⟩)]
  simp only [count_partitions_range, count_partitions_state]
  rw [if_pos (by simpa using hn)]

lemma roundrobininsert_valid_eq (db : DB) (u m : ℤ) (r : ℚ) (h0 : 0 ≤ r) (h5 : r ≤ 5)
    (hn : db.rrobinParts.length ≠ 0) (c : ℤ) (hc : db.rrobinCursor = some c) :
    roundrobininsert u m r db =
      .ok { db with ratings := db.ratings ++ [⟨u, m, r⟩],
                    rrobinParts :=
                      appendAt db.rrobinParts (c % (db.rrobinParts.length : ℤ)).toNat
                        ⟨u, m, r⟩,
                    rrobinCursor := some (c + 1) } := by
  rw [roundrobininsert]
  rw [if_neg (by push_neg; exact ⟨h0, h5⟩)]
  simp only [count_partitions_rrobin, count_partitions_state]
  rw [if_neg (by simpa using hn)]
  simp only [hc]

lemma roundrobininsert_nopart_eq (db : DB) (u m : ℤ) (r : ℚ) (h0 : 0 ≤ r) (h5 : r ≤ 5)
    (hn : db.rrobinParts.length = 0) :
    roundrobininsert u m r db = .ok { db with ratings := db.ratings ++ [⟨u, m, r⟩] } := by
  rw [roundrobininsert]
  rw [if_neg (by push_neg; exact ⟨h0, h5⟩)]
  simp only [count_partitions_rrobin, count_partitions_state]
  rw [if_pos (by simpa using hn)]

lemma roundrobininsert_nocursor_eq (db : DB) (u m : ℤ) (r : ℚ) (h0 : 0 ≤ r) (h5 : r ≤ 5)
    (hn : db.rrobinParts.length ≠ 0) (hc : db.rrobinCursor = none) :
    roundrobininsert u m r db =
      .error { db with ratings := db.ratings ++ [⟨u, m, r⟩] } := by
  rw [roundrobininsert]
  rw [if_neg (by push_neg; exact ⟨h0, h5⟩)]
  simp only [count_partitions_rrobin, count_partitions_state]
  rw [if_neg (by simpa using hn)]
  simp only [hc]

lemma rangeRouteIndex_zero (n : ℕ) (hn : 0 < n) : rangeRouteIndex n 0 = 0 := by
  rw [rangeRouteIndex_eq n hn 0 le_rfl]
  simp

lemma rangeRouteIndex_five (n : ℕ) (hn : 0 < n) : rangeRouteIndex n 5 = (n : ℤ) - 1 := by
  have hq : (5:ℚ)/(5/(n:ℚ)) = (n:ℚ) := by
    have hne : (n:ℚ) ≠ 0 := Nat.cast_ne_zero.2 hn.ne'
    field_simp
  rw [rangeRouteIndex_eq n hn 5 (by norm_num), hq]
  rw [if_pos ⟨by rw [Int.floor_natCast]; norm_cast, by rw [Int.floor_natCast]; exact_mod_cast hn.ne'⟩]
  rw [Int.floor_natCast]

/-- C4: for every `n > 0`, the range incremental insert routes rating `0`
to partition `0` and rating `5.0` to partition `n - 1` (never `n`): the
computed index takes those values, and `rangeinsert` appends the record
to exactly that partition table (besides the base table). -/
theorem rangeinsert_boundary_routing (db : DB) (u m : ℤ) (hn : 0 < db.rangeParts.length) :
    rangeRouteIndex db.rangeParts.length 0 = 0 ∧
    rangeRouteIndex db.rangeParts.length 5 = (db.rangeParts.length : ℤ) - 1 ∧
    rangeinsert u m 0 db =
      { db with ratings := db.ratings ++ [⟨u, m, 0⟩],
                rangeParts := appendAt db.rangeParts 0 ⟨u, m, 0⟩ } ∧
    rangeinsert u m 5 db =
      { db with ratings := db.ratings ++ [⟨u, m, 5⟩],
                rangeParts := appendAt db.rangeParts (db.rangeParts.length - 1) ⟨u, m, 5⟩ } := by
  refine ⟨rangeRouteIndex_zero _ hn, rangeRouteIndex_five _ hn, ?_, ?_⟩
  · rw [rangeinsert_valid_eq db u m 0 le_rfl (by norm_num) hn.ne']
    rw [rangeRouteIndex_zero _ hn]
    rfl
  · rw [rangeinsert_valid_eq db u m 5 (by norm_num) le_rfl hn.ne']
    rw [rangeRouteIndex_five _ hn]
    have ht : ((db.rangeParts.length : ℤ) - 1).toNat = db.rangeParts.length - 1 := by omega
    rw [ht]

/-- Witness for C4 at a state with two range partitions. -/
theorem rangeinsert_boundary_routing_witness :
    rangeRouteIndex (DB.mk [] [[], []] [] none).rangeParts.length 0 = 0 ∧
    rangeRouteIndex (DB.mk [] [[], []] [] none).rangeParts.length 5 =
      ((DB.mk [] [[], []] [] none).rangeParts.length : ℤ) - 1 ∧
    rangeinsert 7 8 0 (DB.mk [] [[], []] [] none) =
      { DB.mk [] [[], []] [] none with
        ratings := (DB.mk [] [[], []] [] none).ratings ++ [⟨7, 8, 0⟩],
        rangeParts := appendAt (DB.mk [] [[], []] [] none).rangeParts 0 ⟨7, 8, 0⟩ } ∧
    rangeinsert 7 8 5 (DB.mk [] [[], []] [] none) =
      { DB.mk [] [[], []] [] none with
        ratings := (DB.mk [] [[], []] [] none).ratings ++ [⟨7, 8, 5⟩],
        rangeParts :=
          appendAt (DB.mk [] [[], []] [] none).rangeParts
            ((DB.mk [] [[], []] [] none).rangeParts.length - 1) ⟨7, 8, 5⟩ } :=
  rangeinsert_boundary_routing (DB.mk [] [[], []] [] none) 7 8 (by decide)

/-- C9: an incremental insert called with a rating outside `[0, 5]` is a
silent no-op for both families: it returns normally before any write, so
the base table, every partition table and the round-robin cursor are
unchanged. -/
theorem insert_invalid_rating_noop (db : DB) (u m : ℤ) (r : ℚ) (hr : r < 0 ∨ r > 5) :
    rangeinsert u m r db = db ∧ roundrobininsert u m r db = Except.ok db :=
  ⟨rangeinsert_invalid_eq db u m r hr, roundrobininsert_invalid_eq db u m r hr⟩

/-- Witness for C9 at rating `6`. -/
theorem insert_invalid_rating_noop_witness :
    rangeinsert 1 2 6 (DB.mk [] [[]] [[]] (some 0)) = DB.mk [] [[]] [[]] (some 0) ∧
    roundrobininsert 1 2 6 (DB.mk [] [[]] [[]] (some 0)) =
      Except.ok (DB.mk [] [[]] [[]] (some 0)) :=
  insert_invalid_rating_noop (DB.mk [] [[]] [[]] (some 0)) 1 2 6 (Or.inr (by norm_num))

/-- C8: an incremental insert with a valid rating performed while the
partition catalog reports zero partitions of the relevant family still
adds the record to the base ratings table, writes no partition table, and
surfaces no error (the round-robin path returns normally rather than
raising). -/
theorem insert_no_partitions_degrades (db : DB) (u m : ℤ) (r : ℚ)
    (h0 : 0 ≤ r) (h5 : r ≤ 5) :
    ((count_partitions "range_part" db).1 = 0 →
      rangeinsert u m r db = { db with ratings := db.ratings ++ [⟨u, m, r⟩] }) ∧
    ((count_partitions "rrobin_part" db).1 = 0 →
      roundrobininsert u m r db =
        Except.ok { db with ratings := db.ratings ++ [⟨u, m, r⟩] }) := by
  constructor
  · intro h
    exact rangeinsert_nopart_eq db u m r h0 h5 (by rwa [count_partitions_range] at h)
  · intro h
    exact roundrobininsert_nopart_eq db u m r h0 h5 (by rwa [count_partitions_rrobin] at h)

/-- Witness for C8 at rating `3` on a state with no partition tables. -/
theorem insert_no_partitions_degrades_witness :
    ((count_partitions "range_part" (DB.mk [] [] [] none)).1 = 0 →
      rangeinsert 1 2 3 (DB.mk [] [] [] none) =
        { DB.mk [] [] [] none with ratings := (DB.mk [] [] [] none).ratings ++ [⟨1, 2, 3⟩] }) ∧
    ((count_partitions "rrobin_part" (DB.mk [] [] [] none)).1 = 0 →
      roundrobininsert 1 2 3 (DB.mk [] [] [] none) =
        Except.ok { DB.mk [] [] [] none with
                    ratings := (DB.mk [] [] [] none).ratings ++ [⟨1, 2, 3⟩] }) :=
  insert_no_partitions_degrades (DB.mk [] [] [] none) 1 2 3 (by norm_num) (by norm_num)

/-- C10: `loadratings` called on a ratings-file path that does not exist
returns immediately: no table is dropped, recreated or modified. -/
theorem loadratings_missing_file_noop (fileLines : List (ℤ × ℤ × ℚ × ℤ)) (db : DB) :
    loadratings false fileLines db = db := rfl

/-- C2 counterexample: in the MissingCursor state — one `rrobin_part`
table exists but `roundrobin_metadata` does not — a round-robin insert
with a valid rating first commits the base row (through the
`con.commit()` inside `count_partitions`) and then raises at the
metadata `SELECT`.  The committed state has the Base Dataset grown by
the record, no partition table written, and the Partition Catalog
reporting one partition of the family, not zero: a base-only partial
write outside the NoPartitionsExist case, refuting the claim as
stated. -/
theorem roundrobininsert_partial_write_counterexample :
    roundrobininsert 1 2 3 (DB.mk [] [] [[]] none) =
      Except.error (DB.mk [⟨1, 2, 3⟩] [] [[]] none) ∧
    (DB.mk [⟨1, 2, 3⟩] [] [[]] none).ratings =
      (DB.mk [] [] [[]] none).ratings ++ [⟨1, 2, 3⟩] ∧
    (DB.mk [⟨1, 2, 3⟩] [] [[]] none).rrobinParts =
      (DB.mk [] [] [[]] none).rrobinParts ∧
    (count_partitions "rrobin_part" (DB.mk [] [] [[]] none)).1 = 1 := by
  refine ⟨?_, rfl, rfl, rfl⟩
  rw [roundrobininsert_nocursor_eq (DB.mk [] [] [[]] none) 1 2 3 (by norm_num) (by norm_num)
    (by decide) rfl]
  rfl

/-- C2 (amended): every operation — bulk build or incremental insert —
commits all of its writes or none, except for base-only partial writes
(Base Dataset gains the record, no partition write), which happen in
exactly two situations: the NoPartitionsExist case, where the catalog
reports zero partitions of the relevant family and the insert returns
normally with only the base row committed, and the MissingCursor case,
where a round-robin insert finds partitions but no `roundrobin_metadata`
table, so the `con.commit()` inside `count_partitions` has already
durably committed the base row when the metadata read raises and every
later write of the run is rolled back. -/
theorem operation_write_atomicity (db : DB) (u m : ℤ) (r : ℚ) (numberofpartitions : ℤ) :
    (rangepartition numberofpartitions db = db ∨
      rangepartition numberofpartitions db =
        { db with
          rangeParts :=
            (List.range numberofpartitions.toNat).map
              (fun i => db.ratings.filter
                (fun row => rangeBulkPred numberofpartitions.toNat i row.rating)) }) ∧
    (roundrobinpartition numberofpartitions db = db ∨
      roundrobinpartition numberofpartitions db =
        { db with
          rrobinParts :=
            (List.range numberofpartitions.toNat).map
              (fun i => (db.ratings.enum.filter
                (fun p => p.1 % numberofpartitions.toNat = i)).map Prod.snd),
          rrobinCursor := some ((db.ratings.length : ℤ) % numberofpartitions) }) ∧
    (rangeinsert u m r db = db ∨
     (∃ idx, idx < db.rangeParts.length ∧
        rangeinsert u m r db =
          { db with ratings := db.ratings ++ [⟨u, m, r⟩],
                    rangeParts := appendAt db.rangeParts idx ⟨u, m, r⟩ }) ∨
     ((count_partitions "range_part" db).1 = 0 ∧
        rangeinsert u m r db = { db with ratings := db.ratings ++ [⟨u, m, r⟩] })) ∧
    (roundrobininsert u m r db = Except.ok db ∨
     (∃ idx c, idx < db.rrobinParts.length ∧ db.rrobinCursor = some c ∧
        roundrobininsert u m r db =
          Except.ok { db with ratings := db.ratings ++ [⟨u, m, r⟩],
                              rrobinParts := appendAt db.rrobinParts idx ⟨u, m, r⟩,
                              rrobinCursor := some (c + 1) }) ∨
     ((count_partitions "rrobin_part" db).1 = 0 ∧
        roundrobininsert u m r db =
          Except.ok { db with ratings := db.ratings ++ [⟨u, m, r⟩] }) ∨
     (0 < db.rrobinParts.length ∧ db.rrobinCursor = none ∧
        roundrobininsert u m r db =
          Except.error { db with ratings := db.ratings ++ [⟨u, m, r⟩] })) := by
  refine ⟨?_, ?_, ?_, ?_⟩
  · by_cases hN : numberofpartitions ≤ 0
    · exact Or.inl (by rw [rangepartition, if_pos hN])
    · exact Or.inr (by rw [rangepartition, if_neg hN])
  · by_cases hN : numberofpartitions ≤ 0
    · exact Or.inl (by rw [roundrobinpartition, if_pos hN])
    · exact Or.inr (by rw [roundrobinpartition, if_neg hN])
  · by_cases hr : r < 0 ∨ r > 5
    · exact Or.inl (rangeinsert_invalid_eq db u m r hr)
    · push_neg at hr
      obtain ⟨h0, h5⟩ := hr
      by_cases hlen : db.rangeParts.length = 0
      · exact Or.inr (Or.inr ⟨by rw [count_partitions_range]; exact hlen,
          rangeinsert_nopart_eq db u m r h0 h5 hlen⟩)
      · have hb := rangeRouteIndex_bounds db.rangeParts.length (Nat.pos_of_ne_zero hlen) r h0 h5
        refine Or.inr (Or.inl ⟨(rangeRouteIndex db.rangeParts.length r).toNat, ?_, ?_⟩)
        · omega
        · exact rangeinsert_valid_eq db u m r h0 h5 hlen
  · by_cases hr : r < 0 ∨ r > 5
    · exact Or.inl (roundrobininsert_invalid_eq db u m r hr)
    · push_neg at hr
      obtain ⟨h0, h5⟩ := hr
      by_cases hlen : db.rrobinParts.length = 0
      · exact Or.inr (Or.inr (Or.inl ⟨by rw [count_partitions_rrobin]; exact hlen,
          roundrobininsert_nopart_eq db u m r h0 h5 hlen⟩))
      · cases hc : db.rrobinCursor with
        | none =>
          refine Or.inr (Or.inr (Or.inr ⟨Nat.pos_of_ne_zero hlen, rfl, ?_⟩))
          rw [roundrobininsert_nocursor_eq db u m r h0 h5 hlen hc, hc]
        | some c =>
          refine Or.inr (Or.inl ⟨(c % (db.rrobinParts.length : ℤ)).toNat, c, ?_, rfl, ?_⟩)
          · have h1 : 0 ≤ c % (db.rrobinParts.length : ℤ) :=
              Int.emod_nonneg c (by exact_mod_cast hlen)
            have h2 : c % (db.rrobinParts.length : ℤ) < db.rrobinParts.length :=
              Int.emod_lt_of_pos c (by exact_mod_cast Nat.pos_of_ne_zero hlen)
            omega
          · exact roundrobininsert_valid_eq db u m r h0 h5 hlen c hc

lemma roundrobinpartition_parts_getD (numberofpartitions : ℤ) (hN : 0 < numberofpartitions)
    (db : DB) (j : ℕ) (hj : j < numberofpartitions.toNat) :
    (roundrobinpartition numberofpartitions db).rrobinParts.getD j [] =
      (db.ratings.enum.filter (fun p => p.1 % numberofpartitions.toNat = j)).map Prod.snd := by
  rw [roundrobinpartition, if_neg (not_le.2 hN)]
  simp only [List.getD_eq_getElem?_getD, List.getElem?_map, List.getElem?_range hj]
  rfl

lemma roundrobinpartition_cursor (numberofpartitions : ℤ) (hN : 0 < numberofpartitions)
    (db : DB) :
    (roundrobinpartition numberofpartitions db).rrobinCursor =
      some ((db.ratings.length : ℤ) % numberofpartitions) := by
  rw [roundrobinpartition, if_neg (not_le.2 hN)]

/-- C5: a round-robin bulk build with `numberofpartitions > 0` places the
base record at 1-based position `p` into partition `(p-1) mod
numberofpartitions`, and afterwards seeds the persisted round-robin
cursor with `total_rows mod numberofpartitions`. -/
theorem roundrobinpartition_positional_routing (numberofpartitions : ℤ)
    (hN : 0 < numberofpartitions) (db : DB) (p : ℕ) (hp1 : 1 ≤ p)
    (hpT : p ≤ db.ratings.length) :
    db.ratings.getD (p - 1) ⟨0, 0, 0⟩ ∈
      (roundrobinpartition numberofpartitions db).rrobinParts.getD
        ((((p : ℤ) - 1) % numberofpartitions).toNat) [] ∧
    (roundrobinpartition numberofpartitions db).rrobinCursor =
      some ((db.ratings.length : ℤ) % numberofpartitions) := by
  have hNt : ((numberofpartitions.toNat : ℤ)) = numberofpartitions :=
    Int.toNat_of_nonneg hN.le
  have hmodc : (((p : ℤ) - 1) % numberofpartitions).toNat =
      (p - 1) % numberofpartitions.toNat := by
    have hcast : ((p:ℤ) - 1) = ((p - 1 : ℕ) : ℤ) := by omega
    calc (((p : ℤ) - 1) % numberofpartitions).toNat
        = (((p - 1 : ℕ) : ℤ) % ((numberofpartitions.toNat : ℕ) : ℤ)).toNat := by
          rw [hcast, hNt]
      _ = ((((p - 1) % numberofpartitions.toNat : ℕ)) : ℤ).toNat := by
          rw [← Int.natCast_mod]
      _ = (p - 1) % numberofpartitions.toNat := Int.toNat_natCast _
  constructor
  · have hjlt : (((p:ℤ) - 1) % numberofpartitions).toNat < numberofpartitions.toNat := by
      rw [hmodc]
      exact Nat.mod_lt _ (by omega)
    rw [roundrobinpartition_parts_getD numberofpartitions hN db _ hjlt]
    rw [List.mem_map]
    have hlt : p - 1 < db.ratings.length := by omega
    refine ⟨(p - 1, db.ratings.getD (p - 1) ⟨0, 0, 0⟩), ?_, rfl⟩
    rw [List.mem_filter]
    constructor
    · rw [List.mk_mem_enum_iff_getElem?, List.getElem?_eq_getElem hlt,
        List.getD_eq_getElem?_getD, List.getElem?_eq_getElem hlt]
      rfl
    · simp only [decide_eq_true_eq]
      rw [hmodc]
  · exact roundrobinpartition_cursor numberofpartitions hN db

/-- Witness for C5: `numberofpartitions = 3`, seven base records, `p = 4`;
the record at position 4 lands in partition `3 mod 3 = 0` and the cursor
is seeded to `7 mod 3 = 1`. -/
theorem roundrobinpartition_positional_routing_witness :
    (DB.mk [⟨1, 1, 1⟩, ⟨2, 2, 2⟩, ⟨3, 3, 3⟩, ⟨4, 4, 4⟩, ⟨5, 5, 5⟩, ⟨6, 6, 1⟩, ⟨7, 7, 2⟩]
        [] [] none).ratings.getD (4 - 1) ⟨0, 0, 0⟩ ∈
      (roundrobinpartition 3
        (DB.mk [⟨1, 1, 1⟩, ⟨2, 2, 2⟩, ⟨3, 3, 3⟩, ⟨4, 4, 4⟩, ⟨5, 5, 5⟩, ⟨6, 6, 1⟩, ⟨7, 7, 2⟩]
          [] [] none)).rrobinParts.getD ((((4 : ℤ) - 1) % 3).toNat) [] ∧
    (roundrobinpartition 3
      (DB.mk [⟨1, 1, 1⟩, ⟨2, 2, 2⟩, ⟨3, 3, 3⟩, ⟨4, 4, 4⟩, ⟨5, 5, 5⟩, ⟨6, 6, 1⟩, ⟨7, 7, 2⟩]
        [] [] none)).rrobinCursor =
      some (((DB.mk [⟨1, 1, 1⟩, ⟨2, 2, 2⟩, ⟨3, 3, 3⟩, ⟨4, 4, 4⟩, ⟨5, 5, 5⟩, ⟨6, 6, 1⟩, ⟨7, 7, 2⟩]
        [] [] none).ratings.length : ℤ) % 3) :=
  roundrobinpartition_positional_routing 3 (by norm_num)
    (DB.mk [⟨1, 1, 1⟩, ⟨2, 2, 2⟩, ⟨3, 3, 3⟩, ⟨4, 4, 4⟩, ⟨5, 5, 5⟩, ⟨6, 6, 1⟩, ⟨7, 7, 2⟩]
      [] [] none) 4 (by norm_num) (by decide)

lemma list_range_map_sum {M : Type} [AddCommMonoid M] (n : ℕ) (g : ℕ → M) :
    ((List.range n).map g).sum = ∑ i ∈ Finset.range n, g i := by
  induction n with
  | zero => simp
  | succ k ih =>
    rw [List.range_succ, List.map_append, List.sum_append, Finset.sum_range_succ, ih]
    simp

/-- Splitting a list by a bounded key and summing the pieces (as
multisets) gives back the whole list. -/
lemma sum_filter_key {α β : Type} (n : ℕ) (f : α → ℕ) (g : α → β) (l : List α)
    (h : ∀ x ∈ l, f x < n) :
    ∑ i ∈ Finset.range n, ((((l.filter (fun x => f x = i)).map g : List β)) : Multiset β) =
      ((l.map g : List β) : Multiset β) := by
  induction l with
  | nil => simp
  | cons a t ih =>
    have ha : f a < n := h a (List.mem_cons_self a t)
    have iht := ih (fun x hx => h x (List.mem_cons_of_mem a hx))
    calc ∑ i ∈ Finset.range n, ((((a :: t).filter (fun x => f x = i)).map g : List β) : Multiset β)
        = ∑ i ∈ Finset.range n,
            ((if f a = i then ({g a} : Multiset β) else 0) +
              (((t.filter (fun x => f x = i)).map g : List β) : Multiset β)) := by
          refine Finset.sum_congr rfl (fun i _ => ?_)
          by_cases hfa : f a = i
          · rw [List.filter_cons_of_pos (by simpa using hfa), if_pos hfa, List.map_cons,
              ← Multiset.cons_coe, ← Multiset.singleton_add]
          · rw [List.filter_cons_of_neg (by simpa using hfa), if_neg hfa, zero_add]
      _ = (∑ i ∈ Finset.range n, (if f a = i then ({g a} : Multiset β) else 0)) +
            ∑ i ∈ Finset.range n, (((t.filter (fun x => f x = i)).map g : List β) : Multiset β) :=
          Finset.sum_add_distrib
      _ = ({g a} : Multiset β) + ((t.map g : List β) : Multiset β) := by
          rw [iht, Finset.sum_ite_eq (Finset.range n) (f a) (fun _ => ({g a} : Multiset β)),
            if_pos (Finset.mem_range.2 ha)]
      _ = (((a :: t).map g : List β) : Multiset β) := by
          rw [List.map_cons, ← Multiset.cons_coe, ← Multiset.singleton_add]

/-- Counting the naturals below `T` congruent to `i` modulo `n`. -/
lemma length_filter_mod (n i : ℕ) (hn : 0 < n) (hi : i < n) (T : ℕ) :
    ((List.range T).filter (fun k => k % n = i)).length =
      T / n + (if i < T % n then 1 else 0) := by
  induction T with
  | zero => simp
  | succ T ih =>
    have hsingle : ([T].filter (fun k => k % n = i)).length = if T % n = i then 1 else 0 := by
      by_cases h : T % n = i
      · rw [List.filter_cons_of_pos (by simpa using h)]
        simp [h]
      · rw [List.filter_cons_of_neg (by simpa using h)]
        simp [h]
    rw [List.range_succ, List.filter_append, List.length_append, ih, hsingle]
    have hmlt : T % n < n := Nat.mod_lt T hn
    have hTd : T = n * (T / n) + T % n := (Nat.div_add_mod T n).symm
    rcases Nat.lt_or_ge (T % n + 1) n with hlt | hge
    · have h1 : T + 1 = n * (T / n) + (T % n + 1) := by omega
      have hd : (T + 1) / n = T / n := by
        rw [h1, Nat.mul_add_div hn, Nat.div_eq_of_lt hlt, Nat.add_zero]
      have hm2 : (T + 1) % n = T % n + 1 := by
        rw [h1, Nat.mul_add_mod, Nat.mod_eq_of_lt hlt]
      rw [hd, hm2]
      split_ifs <;> omega
    · have hmn : T % n + 1 = n := by omega
      have hmul : n * (T / n + 1) = n * (T / n) + n := by ring
      have h1 : T + 1 = n * (T / n + 1) := by omega
      have hd : (T + 1) / n = T / n + 1 := by rw [h1, Nat.mul_div_cancel_left _ hn]
      have hm2 : (T + 1) % n = 0 := by rw [h1]; exact Nat.mul_mod_right n _
      rw [hd, hm2]
      split_ifs <;> omega

/-- Size of round-robin bucket `i` over a base table of `T` rows. -/
lemma roundrobin_part_length (n : ℕ) (hn : 0 < n) (l : List Row) (i : ℕ) (hi : i < n) :
    ((l.enum.filter (fun p => p.1 % n = i)).map Prod.snd).length =
      l.length / n + (if i < l.length % n then 1 else 0) := by
  rw [List.length_map]
  have h1 : ((l.enum.map Prod.fst).filter (fun k => k % n = i)).length =
      (l.enum.filter (fun p => p.1 % n = i)).length := by
    rw [List.filter_map, List.length_map]
    rfl
  rw [← h1, List.enum_map_fst]
  exact length_filter_mod n i hn hi l.length

/-- What the round-robin bulk build stores across its whole family: the
base table, split by 0-based row number modulo the partition count. -/
lemma roundrobinpartition_union (numberofpartitions : ℤ) (hN : 0 < numberofpartitions)
    (db : DB) :
    partsUnion (roundrobinpartition numberofpartitions db).rrobinParts =
      (db.ratings : Multiset Row) := by
  have hn : 0 < numberofpartitions.toNat := by omega
  rw [partsUnion, roundrobinpartition, if_neg (not_le.2 hN)]
  dsimp only
  rw [List.map_map, list_range_map_sum]
  have h := sum_filter_key numberofpartitions.toNat (fun p => p.1 % numberofpartitions.toNat)
    (Prod.snd : ℕ × Row → Row) db.ratings.enum
    (fun x _ => Nat.mod_lt x.1 hn)
  rw [Function.comp_def]
  rw [h, List.enum_map_snd]

/-- C7: after a round-robin bulk build with `numberofpartitions > 0`, the
record counts of any two partitions differ by at most one, and the family
holds every base record exactly once (the multiset union of the
partitions is the base table). -/
theorem roundrobinpartition_balanced (numberofpartitions : ℤ) (hN : 0 < numberofpartitions)
    (db : DB) :
    (∀ i, i < numberofpartitions.toNat → ∀ j, j < numberofpartitions.toNat →
      ((roundrobinpartition numberofpartitions db).rrobinParts.getD i []).length ≤
        ((roundrobinpartition numberofpartitions db).rrobinParts.getD j []).length + 1) ∧
    partsUnion (roundrobinpartition numberofpartitions db).rrobinParts =
      (db.ratings : Multiset Row) := by
  have hn : 0 < numberofpartitions.toNat := by omega
  constructor
  · intro i hi j hj
    rw [roundrobinpartition_parts_getD numberofpartitions hN db i hi,
      roundrobinpartition_parts_getD numberofpartitions hN db j hj,
      roundrobin_part_length numberofpartitions.toNat hn db.ratings i hi,
      roundrobin_part_length numberofpartitions.toNat hn db.ratings j hj]
    split_ifs <;> omega
  · exact roundrobinpartition_union numberofpartitions hN db

/-- Witness for C7 at `numberofpartitions = 3` on a five-record base. -/
theorem roundrobinpartition_balanced_witness :
    (∀ i, i < (3:ℤ).toNat → ∀ j, j < (3:ℤ).toNat →
      ((roundrobinpartition 3
          (DB.mk [⟨1, 1, 1⟩, ⟨2, 2, 2⟩, ⟨3, 3, 3⟩, ⟨4, 4, 4⟩, ⟨5, 5, 5⟩] [] [] none)).rrobinParts.getD
          i []).length ≤
        ((roundrobinpartition 3
          (DB.mk [⟨1, 1, 1⟩, ⟨2, 2, 2⟩, ⟨3, 3, 3⟩, ⟨4, 4, 4⟩, ⟨5, 5, 5⟩] [] [] none)).rrobinParts.getD
          j []).length + 1) ∧
    partsUnion (roundrobinpartition 3
        (DB.mk [⟨1, 1, 1⟩, ⟨2, 2, 2⟩, ⟨3, 3, 3⟩, ⟨4, 4, 4⟩, ⟨5, 5, 5⟩] [] [] none)).rrobinParts =
      ((DB.mk [⟨1, 1, 1⟩, ⟨2, 2, 2⟩, ⟨3, 3, 3⟩, ⟨4, 4, 4⟩, ⟨5, 5, 5⟩] [] [] none).ratings :
        Multiset Row) :=
  roundrobinpartition_balanced 3 (by norm_num)
    (DB.mk [⟨1, 1, 1⟩, ⟨2, 2, 2⟩, ⟨3, 3, 3⟩, ⟨4, 4, 4⟩, ⟨5, 5, 5⟩] [] [] none)

lemma partsUnion_cons (L : List Row) (t : List (List Row)) :
    partsUnion (L :: t) = Multiset.ofList L + partsUnion t := by
  rw [partsUnion, List.map_cons, List.sum_cons, partsUnion]

lemma appendAt_cons_zero (L : List Row) (t : List (List Row)) (row : Row) :
    appendAt (L :: t) 0 row = (L ++ [row]) :: t := rfl

lemma appendAt_cons_succ (L : List Row) (t : List (List Row)) (k : ℕ) (row : Row) :
    appendAt (L :: t) (k + 1) row = L :: appendAt t k row := rfl

lemma length_appendAt (parts : List (List Row)) (idx : ℕ) (row : Row) :
    (appendAt parts idx row).length = parts.length := by
  rw [appendAt, List.length_set]

lemma partsUnion_appendAt (parts : List (List Row)) (idx : ℕ) (row : Row)
    (h : idx < parts.length) :
    partsUnion (appendAt parts idx row) = partsUnion parts + {row} := by
  induction parts generalizing idx with
  | nil => simp at h
  | cons L t ih =>
    cases idx with
    | zero =>
      rw [appendAt_cons_zero, partsUnion_cons, partsUnion_cons, ← Multiset.coe_singleton,
        ← Multiset.coe_add]
      exact add_right_comm _ _ _
    | succ k =>
      rw [appendAt_cons_succ, partsUnion_cons, partsUnion_cons,
        ih k (by simpa using Nat.lt_of_succ_lt_succ h), add_assoc]

lemma mem_partsUnion {row : Row} {parts : List (List Row)} :
    row ∈ partsUnion parts ↔ ∃ i, i < parts.length ∧ row ∈ parts.getD i [] := by
  induction parts with
  | nil => simp [partsUnion]
  | cons L t ih =>
    rw [partsUnion_cons, Multiset.mem_add, ih]
    constructor
    · rintro (hL | ⟨i, hi, hmem⟩)
      · exact ⟨0, by simp, by simpa using hL⟩
      · exact ⟨i + 1, by simpa using hi, by simpa using hmem⟩
    · rintro ⟨i, hi, hmem⟩
      cases i with
      | zero => exact Or.inl (by simpa using hmem)
      | succ k => exact Or.inr ⟨k, by simpa using hi, by simpa using hmem⟩

/-- Specialisation of `sum_filter_key` without the projection. -/
lemma sum_filter_key_id {α : Type} (n : ℕ) (f : α → ℕ) (l : List α)
    (h : ∀ x ∈ l, f x < n) :
    ∑ i ∈ Finset.range n, Multiset.ofList (l.filter (fun x => f x = i)) =
      Multiset.ofList l := by
  have h2 := sum_filter_key n f (fun x => x) l h
  simpa using h2

/-- The bulk `WHERE` clause, as a boolean, coincides with testing the
insert path's routing index. -/
lemma rangeBulkPred_eq_routeBool (n : ℕ) (hn : 0 < n) (r : ℚ) (h0 : 0 ≤ r) (h5 : r ≤ 5)
    (i : ℕ) :
    rangeBulkPred n i r = decide ((rangeRouteIndex n r).toNat = i) := by
  have hb := rangeRouteIndex_bounds n hn r h0 h5
  have hiff := rangeBulkPred_iff_route n hn r h0 i
  have hiff2 : ((i : ℤ) = rangeRouteIndex n r) ↔ ((rangeRouteIndex n r).toNat = i) := by omega
  rcases Bool.eq_false_or_eq_true (rangeBulkPred n i r) with htrue | hfalse
  · rw [htrue]
    symm
    rw [decide_eq_true_eq]
    exact hiff2.1 (hiff.1 htrue)
  · rw [hfalse]
    symm
    rw [decide_eq_false_iff_not]
    intro he
    have h2 := hiff.2 (hiff2.2 he)
    rw [hfalse] at h2
    exact Bool.false_ne_true h2

/-- A range bulk build with a positive partition count establishes the
range consistency invariant. -/
lemma rangepartition_consistent (N : ℤ) (hN : 0 < N) (db : DB)
    (hvalid : ∀ row ∈ db.ratings, 0 ≤ row.rating ∧ row.rating ≤ 5) :
    RangeConsistent (rangepartition N db) ∧
    (rangepartition N db).rangeParts.length = N.toNat ∧
    (rangepartition N db).ratings = db.ratings := by
  have hn : 0 < N.toNat := by omega
  rw [RangeConsistent, rangepartition, if_neg (not_le.2 hN)]
  dsimp only
  have hlen : ((List.range N.toNat).map
      (fun i => db.ratings.filter (fun row => rangeBulkPred N.toNat i row.rating))).length =
        N.toNat := by
    rw [List.length_map, List.length_range]
  refine ⟨⟨?_, ?_⟩, hlen, rfl⟩
  · intro i hi row hrow
    have hi' : i < N.toNat := by rwa [hlen] at hi
    rw [List.getElem_map, List.getElem_range] at hrow
    rw [List.mem_filter] at hrow
    obtain ⟨hmem, hpred⟩ := hrow
    have hv := hvalid row hmem
    refine ⟨hv, ?_⟩
    rw [hlen]
    exact ((rangeBulkPred_iff_route N.toNat hn row.rating hv.1 i).1 hpred).symm
  · rw [partsUnion, List.map_map, list_range_map_sum]
    simp only [Function.comp_def]
    have hcong : ∀ i ∈ Finset.range N.toNat,
        Multiset.ofList (db.ratings.filter (fun row => rangeBulkPred N.toNat i row.rating)) =
          Multiset.ofList
            (db.ratings.filter
              (fun row => (rangeRouteIndex N.toNat row.rating).toNat = i)) := by
      intro i _
      congr 1
      refine List.filter_congr (fun row hrow => ?_)
      exact rangeBulkPred_eq_routeBool N.toNat hn row.rating (hvalid row hrow).1
        (hvalid row hrow).2 i
    rw [Finset.sum_congr rfl hcong]
    exact sum_filter_key_id N.toNat (fun row => (rangeRouteIndex N.toNat row.rating).toNat)
      db.ratings
      (fun row hrow => by
        have hb := rangeRouteIndex_bounds N.toNat hn row.rating (hvalid row hrow).1
          (hvalid row hrow).2
        show (rangeRouteIndex N.toNat row.rating).toNat < N.toNat
        omega)

lemma getElem_appendAt_self (parts : List (List Row)) (idx : ℕ) (row : Row)
    (h : idx < (appendAt parts idx row).length) :
    (appendAt parts idx row)[idx] = parts.getD idx [] ++ [row] := by
  unfold appendAt at h ⊢
  exact List.getElem_set_self h

lemma getElem_appendAt_ne (parts : List (List Row)) (idx : ℕ) (row : Row) {j : ℕ}
    (hne : idx ≠ j) (h : j < (appendAt parts idx row).length) (h2 : j < parts.length) :
    (appendAt parts idx row)[j] = parts[j] := by
  unfold appendAt at h ⊢
  exact List.getElem_set_ne hne h

/-- A range incremental insert preserves the range consistency invariant
whenever at least one range partition exists. -/
lemma rangeinsert_consistent (u m : ℤ) (r : ℚ) (db : DB)
    (hlen : 0 < db.rangeParts.length) (hcons : RangeConsistent db) :
    RangeConsistent (rangeinsert u m r db) ∧
    (rangeinsert u m r db).rangeParts.length = db.rangeParts.length := by
  obtain ⟨hparts, hunion⟩ := hcons
  by_cases hr : r < 0 ∨ r > 5
  · rw [rangeinsert_invalid_eq db u m r hr]
    exact ⟨⟨hparts, hunion⟩, rfl⟩
  · push_neg at hr
    obtain ⟨h0, h5⟩ := hr
    rw [rangeinsert_valid_eq db u m r h0 h5 hlen.ne']
    have hb := rangeRouteIndex_bounds db.rangeParts.length hlen r h0 h5
    have hidxlt : (rangeRouteIndex db.rangeParts.length r).toNat < db.rangeParts.length := by
      omega
    have hleneq : (appendAt db.rangeParts (rangeRouteIndex db.rangeParts.length r).toNat
        ⟨u, m, r⟩).length = db.rangeParts.length := length_appendAt _ _ _
    unfold RangeConsistent
    dsimp only
    refine ⟨⟨?_, ?_⟩, hleneq⟩
    · simp only [hleneq]
      intro i hi row hrow
      by_cases hij : (rangeRouteIndex db.rangeParts.length r).toNat = i
      · subst hij
        rw [getElem_appendAt_self _ _ _ (by rwa [hleneq]),
          List.getD_eq_getElem _ _ hidxlt, List.mem_append] at hrow
        rcases hrow with hold | hnew
        · exact hparts _ hidxlt row hold
        · rw [List.mem_singleton] at hnew
          subst hnew
          refine ⟨⟨h0, h5⟩, ?_⟩
          show rangeRouteIndex db.rangeParts.length r =
            ((rangeRouteIndex db.rangeParts.length r).toNat : ℤ)
          omega
      · rw [getElem_appendAt_ne _ _ _ hij (by rwa [hleneq]) hi] at hrow
        exact hparts i hi row hrow
    · rw [partsUnion_appendAt _ _ _ hidxlt, hunion, ← Multiset.coe_singleton,
        Multiset.coe_add]

/-- A whole sequence of range incremental inserts preserves the range
consistency invariant and the partition count. -/
lemma rangeInsertFold_consistent (ops : List (ℤ × ℤ × ℚ)) :
    ∀ db : DB, 0 < db.rangeParts.length → RangeConsistent db →
      RangeConsistent (rangeInsertFold ops db) ∧
      (rangeInsertFold ops db).rangeParts.length = db.rangeParts.length := by
  induction ops with
  | nil => exact fun db _ h => ⟨h, rfl⟩
  | cons op t ih =>
    intro db hlen hcons
    have hstep := rangeinsert_consistent op.1 op.2.1 op.2.2 db hlen hcons
    have hlen' : 0 < (rangeinsert op.1 op.2.1 op.2.2 db).rangeParts.length := by
      rw [hstep.2]; exact hlen
    have hrest := ih (rangeinsert op.1 op.2.1 op.2.2 db) hlen' hstep.1
    rw [rangeInsertFold, List.foldl_cons]
    exact ⟨hrest.1, hrest.2.trans hstep.2⟩

/-- C3: after a range bulk build with `N > 0` on an all-valid base table,
and after any further sequence of range incremental inserts, the multiset
union of the range partitions equals the base table, and every base
record lies in exactly one of the partitions. -/
theorem range_family_matches_base (N : ℤ) (hN : 0 < N) (db : DB)
    (hvalid : ∀ row ∈ db.ratings, 0 ≤ row.rating ∧ row.rating ≤ 5)
    (ops : List (ℤ × ℤ × ℚ)) :
    partsUnion (rangeInsertFold ops (rangepartition N db)).rangeParts =
      Multiset.ofList (rangeInsertFold ops (rangepartition N db)).ratings ∧
    ∀ row ∈ (rangeInsertFold ops (rangepartition N db)).ratings,
      ∃! i : ℕ, i < (rangeInsertFold ops (rangepartition N db)).rangeParts.length ∧
        row ∈ (rangeInsertFold ops (rangepartition N db)).rangeParts.getD i [] := by
  obtain ⟨hc0, hlen0, -⟩ := rangepartition_consistent N hN db hvalid
  have hlenpos : 0 < (rangepartition N db).rangeParts.length := by rw [hlen0]; omega
  obtain ⟨⟨hparts, hunion⟩, hlen⟩ :=
    rangeInsertFold_consistent ops (rangepartition N db) hlenpos hc0
  refine ⟨hunion, ?_⟩
  intro row hrow
  have hmem : row ∈ partsUnion (rangeInsertFold ops (rangepartition N db)).rangeParts := by
    rw [hunion]
    exact Multiset.mem_coe.2 hrow
  obtain ⟨i, hi, hrowi⟩ := mem_partsUnion.1 hmem
  refine ⟨i, ⟨hi, hrowi⟩, ?_⟩
  rintro j ⟨hj, hrowj⟩
  have h1 := (hparts i hi row (by rwa [List.getD_eq_getElem _ _ hi] at hrowi)).2
  have h2 := (hparts j hj row (by rwa [List.getD_eq_getElem _ _ hj] at hrowj)).2
  omega

/-- Witness for C3: two partitions, a two-record base, one subsequent
insert. -/
theorem range_family_matches_base_witness :
    partsUnion (rangeInsertFold [(3, 3, 3)]
        (rangepartition 2 (DB.mk [⟨1, 1, 1⟩, ⟨2, 2, 4⟩] [] [] none))).rangeParts =
      Multiset.ofList (rangeInsertFold [(3, 3, 3)]
        (rangepartition 2 (DB.mk [⟨1, 1, 1⟩, ⟨2, 2, 4⟩] [] [] none))).ratings ∧
    ∀ row ∈ (rangeInsertFold [(3, 3, 3)]
        (rangepartition 2 (DB.mk [⟨1, 1, 1⟩, ⟨2, 2, 4⟩] [] [] none))).ratings,
      ∃! i : ℕ, i < (rangeInsertFold [(3, 3, 3)]
          (rangepartition 2 (DB.mk [⟨1, 1, 1⟩, ⟨2, 2, 4⟩] [] [] none))).rangeParts.length ∧
        row ∈ (rangeInsertFold [(3, 3, 3)]
          (rangepartition 2 (DB.mk [⟨1, 1, 1⟩, ⟨2, 2, 4⟩] [] [] none))).rangeParts.getD i [] :=
  range_family_matches_base 2 (by norm_num) (DB.mk [⟨1, 1, 1⟩, ⟨2, 2, 4⟩] [] [] none)
    (by decide) [(3, 3, 3)]

lemma rrobinInsertFold_append (l1 l2 : List (ℤ × ℤ × ℚ)) (db : DB) :
    rrobinInsertFold (l1 ++ l2) db =
      (rrobinInsertFold l1 db).bind (fun db1 => rrobinInsertFold l2 db1) := by
  unfold rrobinInsertFold
  rw [List.foldlM_append]
  rfl

lemma rrobinInsertFold_cons (op : ℤ × ℤ × ℚ) (t : List (ℤ × ℤ × ℚ)) (db : DB) :
    rrobinInsertFold (op :: t) db =
      (roundrobininsert op.1 op.2.1 op.2.2 db).bind (fun db1 => rrobinInsertFold t db1) := by
  unfold rrobinInsertFold
  rw [List.foldlM_cons]
  rfl

/-- Running a block of valid-rating round-robin inserts from a state with
a cursor and at least one partition: all succeed, the cursor advances by
exactly the number of inserts, the partition count is unchanged, and the
base table gains the records in call order. -/
lemma rrobinInsertFold_cursor (ops : List (ℤ × ℤ × ℚ))
    (hops : ∀ op ∈ ops, 0 ≤ op.2.2 ∧ op.2.2 ≤ 5) :
    ∀ (db : DB) (c : ℤ), db.rrobinCursor = some c → 0 < db.rrobinParts.length →
      ∃ db', rrobinInsertFold ops db = Except.ok db' ∧
        db'.rrobinCursor = some (c + ops.length) ∧
        db'.rrobinParts.length = db.rrobinParts.length ∧
        db'.ratings = db.ratings ++ ops.map (fun op => ⟨op.1, op.2.1, op.2.2⟩) := by
  induction ops with
  | nil =>
    intro db c hc hlen
    refine ⟨db, rfl, ?_, rfl, by simp⟩
    rw [hc]
    simp
  | cons op t ih =>
    intro db c hc hlen
    have hop := hops op (List.mem_cons_self op t)
    have htail : ∀ x ∈ t, 0 ≤ x.2.2 ∧ x.2.2 ≤ 5 :=
      fun x hx => hops x (List.mem_cons_of_mem op hx)
    have hstep := roundrobininsert_valid_eq db op.1 op.2.1 op.2.2 hop.1 hop.2 hlen.ne' c hc
    rw [rrobinInsertFold_cons, hstep]
    obtain ⟨db', hfold, hcur, hlen', hrat⟩ :=
      ih htail
        { db with ratings := db.ratings ++ [⟨op.1, op.2.1, op.2.2⟩],
                  rrobinParts := appendAt db.rrobinParts
                    ((c % (db.rrobinParts.length : ℤ)).toNat) ⟨op.1, op.2.1, op.2.2⟩,
                  rrobinCursor := some (c + 1) }
        (c + 1) rfl (by dsimp only; rw [length_appendAt]; exact hlen)
    refine ⟨db', hfold, ?_, ?_, ?_⟩
    · rw [hcur]
      congr 1
      rw [List.length_cons]
      push_cast
      ring
    · rw [hlen']
      dsimp only
      rw [length_appendAt]
    · rw [hrat]
      dsimp only
      rw [List.append_assoc, List.map_cons]
      rfl

/-- C6: starting from cursor value `c` with at least one round-robin
partition, the `k`-th (0-based) of a block of valid-rating round-robin
inserts succeeds, finds the cursor at `c + k`, appends its record to
partition `(c + k) mod N` and nothing else, and advances the persisted
cursor by exactly one (unbounded, the modulo applied only at read). -/
theorem roundrobininsert_rotation (db : DB) (c : ℤ) (hc : db.rrobinCursor = some c)
    (hN : 0 < db.rrobinParts.length) (ops : List (ℤ × ℤ × ℚ))
    (hops : ∀ op ∈ ops, 0 ≤ op.2.2 ∧ op.2.2 ≤ 5) (k : ℕ) (hk : k < ops.length) :
    ∃ dbk dbk1,
      rrobinInsertFold (ops.take k) db = Except.ok dbk ∧
      rrobinInsertFold (ops.take (k + 1)) db = Except.ok dbk1 ∧
      dbk.rrobinCursor = some (c + k) ∧
      dbk1.rrobinCursor = some (c + k + 1) ∧
      dbk1.ratings = dbk.ratings ++ [⟨(ops.getD k (0, 0, 0)).1, (ops.getD k (0, 0, 0)).2.1,
        (ops.getD k (0, 0, 0)).2.2⟩] ∧
      dbk1.rrobinParts =
        appendAt dbk.rrobinParts (((c + k) % (db.rrobinParts.length : ℤ)).toNat)
          ⟨(ops.getD k (0, 0, 0)).1, (ops.getD k (0, 0, 0)).2.1, (ops.getD k (0, 0, 0)).2.2⟩ := by
  have htake : ∀ x ∈ ops.take k, 0 ≤ x.2.2 ∧ x.2.2 ≤ 5 :=
    fun x hx => hops x (List.mem_of_mem_take hx)
  obtain ⟨dbk, hfold, hcur, hlen, -⟩ := rrobinInsertFold_cursor (ops.take k) htake db c hc hN
  have hklen : (ops.take k).length = k := by
    rw [List.length_take]
    exact Nat.min_eq_left hk.le
  rw [hklen] at hcur
  have hgetD : ops.getD k (0, 0, 0) = ops[k] := List.getD_eq_getElem ops (0, 0, 0) hk
  have hop := hops ops[k] (List.getElem_mem hk)
  have hstep := roundrobininsert_valid_eq dbk (ops[k]).1 (ops[k]).2.1 (ops[k]).2.2 hop.1 hop.2
    (by rw [hlen]; exact hN.ne') (c + k) hcur
  have htake1 : ops.take (k + 1) = ops.take k ++ [ops[k]] := by
    rw [List.take_succ, List.getElem?_eq_getElem hk]
    rfl
  refine ⟨dbk,
    { dbk with ratings := dbk.ratings ++ [⟨(ops[k]).1, (ops[k]).2.1, (ops[k]).2.2⟩],
               rrobinParts := appendAt dbk.rrobinParts
                 (((c + k) % (dbk.rrobinParts.length : ℤ)).toNat)
                 ⟨(ops[k]).1, (ops[k]).2.1, (ops[k]).2.2⟩,
               rrobinCursor := some (c + k + 1) },
    hfold, ?_, hcur, rfl, ?_, ?_⟩
  · rw [htake1, rrobinInsertFold_append, hfold]
    show rrobinInsertFold [ops[k]] dbk = _
    rw [rrobinInsertFold_cons, hstep]
    rfl
  · dsimp only
    rw [hgetD]
  · dsimp only
    rw [hgetD, hlen]

/-- Witness for C6: one partition, cursor at 5, two inserts, `k = 1`. -/
theorem roundrobininsert_rotation_witness :
    ∃ dbk dbk1,
      rrobinInsertFold ([(1, 1, 2), (2, 2, 3)].take 1) (DB.mk [] [] [[]] (some 5)) =
        Except.ok dbk ∧
      rrobinInsertFold ([(1, 1, 2), (2, 2, 3)].take (1 + 1))
        (DB.mk [] [] [[]] (some 5)) = Except.ok dbk1 ∧
      dbk.rrobinCursor = some (5 + (1 : ℕ)) ∧
      dbk1.rrobinCursor = some (5 + (1 : ℕ) + 1) ∧
      dbk1.ratings = dbk.ratings ++
        [⟨([(1, 1, 2), (2, 2, 3)].getD 1 (0, 0, 0)).1,
          ([(1, 1, 2), (2, 2, 3)].getD 1 (0, 0, 0)).2.1,
          ([(1, 1, 2), (2, 2, 3)].getD 1 (0, 0, 0)).2.2⟩] ∧
      dbk1.rrobinParts =
        appendAt dbk.rrobinParts
          (((5 + (1 : ℕ)) % ((DB.mk [] [] [[]] (some 5)).rrobinParts.length : ℤ)).toNat)
          ⟨([(1, 1, 2), (2, 2, 3)].getD 1 (0, 0, 0)).1,
           ([(1, 1, 2), (2, 2, 3)].getD 1 (0, 0, 0)).2.1,
           ([(1, 1, 2), (2, 2, 3)].getD 1 (0, 0, 0)).2.2⟩ :=
  roundrobininsert_rotation (DB.mk [] [] [[]] (some 5)) 5 rfl (by decide)
    [(1, 1, 2), (2, 2, 3)] (by decide) 1 (by decide)
